import Mathlib

/-!
# Verification of the Re-Centris fingerprint pipeline

A shallow embedding, in Lean 4, of the string-processing core of the
Re-Centris component/version detector (collector, preprocessor, detector),
translated from the Python sources:

* `src/osscollector/collector.py` and `src/src/osscollector/OSS_Collector.py`
  (function extractor: `normalize`, the TLSH acceptance filter in
  `process_single_file`, the file-type gate in `hashing`);
* `src/re-centris-python-new/preprocessor/Preprocessor_lite.py` and
  `src/preprocessor/preprocessor.py` (signature builder, birth dates,
  meta tables, component reducer);
* `src/detector/Detector.py` and `src/src/detector/Detector.py`
  (coverage gate, version prediction, usage classification).

Python strings are modelled as `String` / `List Char`; Python `dict`s
(which preserve insertion order) as association lists updated in place;
Python float scores as the elements of a `LinearOrderedField`
(instantiated at `ℚ` for concrete evaluations; the real weights
`log (V / k)` live in `ℝ`, which is also such a field).
-/

namespace ReCentris

/-! ## Python string primitives -/

/-- Python string `<=`: lexicographic comparison of code points
(`s1 <= s2` over `str` compares Unicode code points left to right). -/
def lexLe : List Char → List Char → Bool
  | [], _ => true
  | _ :: _, [] => false
  | a :: as, b :: bs =>
      if a.toNat < b.toNat then true
      else if b.toNat < a.toNat then false
      else lexLe as bs

/-- Python `s1 <= s2` on strings. -/
def strLe (a b : String) : Bool := lexLe a.data b.data

/-- Does list `l` start with `p`?  (Python `str.startswith`.) -/
def startsWithCL : List Char → List Char → Bool
  | _, [] => true
  | [], _ :: _ => false
  | a :: as, b :: bs => a == b && startsWithCL as bs

/-- Does list `l` end with `p`?  (Python `str.endswith`.) -/
def endsWithCL (l p : List Char) : Bool := startsWithCL l.reverse p.reverse

/-- Does `t` contain `p` as a contiguous sublist?  (Python `p in t`.) -/
def containsSub (t p : List Char) : Bool :=
  startsWithCL t p ||
    match t with
    | [] => false
    | _ :: ts => containsSub ts p

/-- Python `p in t` on strings (substring containment). -/
def pyIn (p t : String) : Bool := containsSub t.data p.data

/-- One step of insertion sort with respect to Python string `<=`. -/
def insertLe (x : String) : List String → List String
  | [] => [x]
  | y :: ys => if strLe x y then x :: y :: ys else y :: insertLe x ys

/-- Sorting a list of strings in Python (`list.sort()` compares strings
by code points; modelled by insertion sort, which produces the same
sorted result). -/
def pySort : List String → List String
  | [] => []
  | x :: xs => insertLe x (pySort xs)

/-- Lookup in an association list (a Python `dict` read `m[k]` /
`k in m`). -/
def alLookup {β : Type} (m : List (String × β)) (k : String) : Option β :=
  match m.find? (fun e => e.1 == k) with
  | some e => some e.2
  | none => none

/-- Python `k in m` for a `dict`. -/
def alHasKey {β : Type} (m : List (String × β)) (k : String) : Bool :=
  (alLookup m k).isSome

/-! ## Collector: normalisation (`normalize`), fingerprint acceptance
(`process_single_file`), file-type gate (`hashing`) -/

/-- Python `string.replace(c, '')`: delete every occurrence of `c`. -/
def pyRemoveAll (c : Char) (l : List Char) : List Char :=
  l.filter (fun a => a ≠ c)

/-- `normalize` from `collector.py` / `OSS_Collector.py` /
`Detector._normalize_code`:

`''.join(string.replace('\n','').replace('\r','').replace('\t','')
   .replace('{','').replace('}','').split(' ')).lower()`

— the five `replace` calls delete `\n`, `\r`, `\t`, `{`, `}`; the
`split(' ')`/`join` pair deletes every space; `.lower()` lowercases
the remainder (lowercasing modelled by `Char.toLower`). -/
def normalizeCL (l : List Char) : List Char :=
  ((pyRemoveAll ' '
    (pyRemoveAll '}'
      (pyRemoveAll '{'
        (pyRemoveAll '\t'
          (pyRemoveAll '\r'
            (pyRemoveAll '\n' l)))))).map Char.toLower)

/-- `normalize` on `String`. -/
def normalize (s : String) : String := String.mk (normalizeCL s.data)

/-- An uppercase hexadecimal digit (the alphabet of TLSH digests). -/
def isUpperHexChar (c : Char) : Bool :=
  ('0' ≤ c && c ≤ '9') || ('A' ≤ c && c ≤ 'F')

/-- Exactly 70 uppercase hexadecimal characters. -/
def isHex70 (l : List Char) : Bool :=
  l.length == 70 && l.all isUpperHexChar

/-- The sentinel outputs of the fingerprint oracle: `"TNULL"`, `""`,
`"NULL"`. -/
def isSentinel (h : List Char) : Bool :=
  h == "TNULL".data || h == [] || h == "NULL".data

/-- The fingerprint acceptance filter of `process_single_file`
(`collector.py` lines 324–330, `OSS_Collector.py` lines 187–193):

```
if len(func_hash) == 72 and func_hash.startswith("T1"):
    func_hash = func_hash[2:]
elif func_hash in ("TNULL", "", "NULL"):
    continue
results.append((func_hash, stored_path))
```

`some r` means the fingerprint `r` is recorded; `none` means the
function is skipped. -/
def acceptHash (h : List Char) : Option (List Char) :=
  if h.length == 72 && startsWithCL h "T1".data then some (h.drop 2)
  else if isSentinel h then none
  else some h

/-- The shapes a fingerprint-oracle output can take, per the oracle
contract (§6 of the spec; `tlsh.forcehash` produces either a plain
70-char uppercase-hex digest, a `T1`-prefixed 72-char digest, or a
sentinel). -/
def validOracleOut (h : List Char) : Prop :=
  isHex70 h = true ∨
    (h.length = 72 ∧ startsWithCL h "T1".data = true ∧ isHex70 (h.drop 2) = true) ∨
    isSentinel h = true

/-- The file-type gate of `hashing` (`collector.py` lines 359–369,
`OSS_Collector.py` lines 214–224):

`possible = (".c", ".cc", ".cpp")` and
`if file.endswith(possible)`. -/
def fileGate (f : List Char) : Bool :=
  endsWithCL f ".c".data || endsWithCL f ".cc".data || endsWithCL f ".cpp".data

/-- The extension of a file name: its suffix starting at the last dot
(`none` when the name has no dot). -/
def extOf (f : List Char) : Option (List Char) :=
  if f.reverse.any (fun c => c == '.') then
    some ('.' :: (f.reverse.takeWhile (fun c => c ≠ '.')).reverse)
  else none

/-- Modelled from the spec's words (for comparison with `fileGate`):
"accept only files whose extension, case-folded, is in the set
`{.c, .cc, .cpp, .cxx, .h, .hpp}`". -/
def specFileGate (f : List Char) : Bool :=
  match extOf f with
  | some e =>
      [".c".data, ".cc".data, ".cpp".data, ".cxx".data, ".h".data, ".hpp".data].contains
        (e.map Char.toLower)
  | none => false

/-! ### Character-level helper lemmas -/

theorem char_ne_of_toNat_ne {a b : Char} (h : a.toNat ≠ b.toNat) : a ≠ b :=
  fun hab => h (by rw [hab])

theorem char_toNat_ofNat_valid (n : Nat) (h : n.isValidChar) :
    (Char.ofNat n).toNat = n := by
  simp [Char.ofNat, h]
  rfl

/-- `Char.toLower` of an upper-case ASCII letter has code point shifted
by 32; everything else is fixed.  Key consequence: `toLower` is
idempotent. -/
theorem toLower_toLower (c : Char) : c.toLower.toLower = c.toLower := by
  unfold Char.toLower
  by_cases h : c.toNat ≥ 65 ∧ c.toNat ≤ 90
  · rw [if_pos h]
    have hv : (c.toNat + 32).isValidChar := by
      left
      have := h.2
      omega
    have ht : (Char.ofNat (c.toNat + 32)).toNat = c.toNat + 32 :=
      char_toNat_ofNat_valid _ hv
    rw [if_neg]
    rw [ht]
    omega
  · rw [if_neg h, if_neg h]

theorem toNat_toLower (c : Char) :
    c.toLower.toNat = if c.toNat ≥ 65 ∧ c.toNat ≤ 90 then c.toNat + 32 else c.toNat := by
  unfold Char.toLower
  by_cases h : c.toNat ≥ 65 ∧ c.toNat ≤ 90
  · rw [if_pos h, if_pos h]
    exact char_toNat_ofNat_valid _ (Or.inl (by omega))
  · rw [if_neg h, if_neg h]

/-- The characters deleted by `normalize`: `\n`, `\r`, `\t`, `{`, `}`,
and the space.  `keepChar c = true` iff `c` survives the deletions. -/
def keepChar (c : Char) : Bool :=
  decide (c ≠ ' ') && (decide (c ≠ '}') && (decide (c ≠ '{') &&
    (decide (c ≠ '\t') && (decide (c ≠ '\r') && decide (c ≠ '\n')))))

theorem normalizeCL_eq (l : List Char) :
    normalizeCL l = (l.filter keepChar).map Char.toLower := by
  simp only [normalizeCL, pyRemoveAll, List.filter_filter]
  rfl

theorem keepChar_iff_toNat (c : Char) :
    keepChar c = true ↔
      (c.toNat ≠ 32 ∧ c.toNat ≠ 125 ∧ c.toNat ≠ 123 ∧ c.toNat ≠ 9 ∧
        c.toNat ≠ 13 ∧ c.toNat ≠ 10) := by
  simp only [keepChar, Bool.and_eq_true, decide_eq_true_eq]
  constructor
  · rintro ⟨h1, h2, h3, h4, h5, h6⟩
    refine ⟨fun h => h1 ?_, fun h => h2 ?_, fun h => h3 ?_,
      fun h => h4 ?_, fun h => h5 ?_, fun h => h6 ?_⟩ <;>
      · exact Char.ext (UInt32.ext h)
  · rintro ⟨h1, h2, h3, h4, h5, h6⟩
    exact ⟨char_ne_of_toNat_ne h1, char_ne_of_toNat_ne h2, char_ne_of_toNat_ne h3,
      char_ne_of_toNat_ne h4, char_ne_of_toNat_ne h5, char_ne_of_toNat_ne h6⟩

theorem keepChar_toLower (c : Char) : keepChar c.toLower = keepChar c := by
  by_cases h : c.toNat ≥ 65 ∧ c.toNat ≤ 90
  · have h1 : keepChar c = true := by
      rw [keepChar_iff_toNat]
      omega
    have h2 : keepChar c.toLower = true := by
      rw [keepChar_iff_toNat, toNat_toLower, if_pos h]
      omega
    rw [h1, h2]
  · have : c.toLower = c := by
      unfold Char.toLower
      rw [if_neg h]
    rw [this]

/-- The file collection step of `hashing`: keep exactly the file names
passing the extension gate (`files_to_process` in the source). -/
def collectFiles (files : List String) : List String :=
  files.filter (fun f => fileGate f.data)

/-! ## Claim C10: the normaliser is idempotent -/

/-- **C10.** For every input string `s`,
`normalize (normalize s) = normalize s`: the normaliser's output
contains no newline, carriage-return, tab, brace, or space characters
(`keepChar c = true`) and is already lowercase (`c.toLower = c`), so a
second application is the identity. -/
theorem normalize_idempotent (s : String) :
    normalize (normalize s) = normalize s ∧
    (∀ c ∈ (normalize s).data, keepChar c = true ∧ c.toLower = c) := by
  have hdata : ∀ l : List Char, (normalize (String.mk l)).data = normalizeCL l :=
    fun l => rfl
  constructor
  · show String.mk (normalizeCL (normalize s).data) = normalize s
    rw [show (normalize s).data = normalizeCL s.data from rfl]
    show String.mk (normalizeCL (normalizeCL s.data)) = String.mk (normalizeCL s.data)
    congr 1
    rw [normalizeCL_eq, normalizeCL_eq, List.filter_map]
    rw [show (keepChar ∘ Char.toLower) = keepChar from funext keepChar_toLower]
    rw [List.filter_filter]
    rw [show (fun a => keepChar a && keepChar a) = keepChar from
      funext fun a => Bool.and_self _]
    rw [List.map_map]
    rw [show (Char.toLower ∘ Char.toLower) = Char.toLower from
      funext toLower_toLower]
  · intro c hc
    rw [show (normalize s).data = normalizeCL s.data from rfl, normalizeCL_eq] at hc
    rcases List.mem_map.mp hc with ⟨d, hd, rfl⟩
    have hkeep : keepChar d = true := List.of_mem_filter hd
    exact ⟨(keepChar_toLower d).trans hkeep, toLower_toLower d⟩

/-- Witness for C10 at a concrete input. -/
theorem normalize_idempotent_witness :
    normalize (normalize "Ab \x7b\n\x7d\tC d") = normalize "Ab \x7b\n\x7d\tC d" :=
  (normalize_idempotent "Ab \x7b\n\x7d\tC d").1

/-! ## Claim C6: fingerprint acceptance -/

theorem sentinel_cases {h : List Char} (hs : isSentinel h = true) :
    h = "TNULL".data ∨ h = [] ∨ h = "NULL".data := by
  simpa [isSentinel, or_assoc] using hs

/-- **C6.** For every oracle output of a shape the fingerprint oracle can
produce (`validOracleOut`), the acceptance filter of
`process_single_file` records only strings of exactly 70 hexadecimal
characters (after stripping the optional two-character `T1` prefix),
and the sentinels `TNULL`, `""`, `NULL` are never recorded. -/
theorem accept_hash_hex70 (h : List Char) (hv : validOracleOut h) :
    (∀ r, acceptHash h = some r → isHex70 r = true) ∧
    (isSentinel h = true → acceptHash h = none) := by
  rcases hv with hhex | ⟨hlen, hT1, hhex2⟩ | hsent
  · have hlen70 : h.length = 70 := by
      have := (Bool.and_eq_true _ _).mp hhex
      exact Nat.beq_eq ▸ (by simpa using this.1)
    have hsent : isSentinel h = false := by
      simp only [isSentinel, Bool.or_eq_false_iff, beq_eq_false_iff_ne, ne_eq]
      refine ⟨⟨fun he => ?_, fun he => ?_⟩, fun he => ?_⟩ <;>
        · rw [he] at hlen70
          exact absurd hlen70 (by decide)
    have hacc : acceptHash h = some h := by
      unfold acceptHash
      rw [if_neg, if_neg]
      · rw [hsent]
        exact Bool.false_ne_true
      · intro hcontra
        have := (Bool.and_eq_true _ _).mp hcontra
        have h72 : h.length = 72 := by simpa using this.1
        omega
    refine ⟨fun r hr => ?_, fun hst => ?_⟩
    · rw [hacc] at hr
      cases hr
      exact hhex
    · rw [hst] at hsent
      exact absurd hsent (by decide)
  · have hacc : acceptHash h = some (h.drop 2) := by
      unfold acceptHash
      rw [if_pos]
      exact (Bool.and_eq_true _ _).mpr ⟨by simpa using hlen, hT1⟩
    refine ⟨fun r hr => ?_, fun hst => ?_⟩
    · rw [hacc] at hr
      cases hr
      exact hhex2
    · exfalso
      rcases sentinel_cases hst with rfl | rfl | rfl <;> simp_all
  · have hne : (h.length == 72 && startsWithCL h "T1".data) = false := by
      rcases sentinel_cases hsent with rfl | rfl | rfl <;> decide
    have hacc : acceptHash h = none := by
      unfold acceptHash
      rw [if_neg (by simp [hne]), if_pos hsent]
    refine ⟨fun r hr => ?_, fun _ => hacc⟩
    rw [hacc] at hr
    cases hr

/-- Witness for C6: a `T1`-prefixed 72-character digest is recorded with
the prefix stripped, and the result is 70 hexadecimal characters. -/
theorem accept_hash_hex70_witness :
    acceptHash ("T1".data ++ List.replicate 70 'A') = some (List.replicate 70 'A') ∧
    isHex70 (List.replicate 70 'A') = true := by
  have hv : validOracleOut ("T1".data ++ List.replicate 70 'A') := by
    right; left
    refine ⟨by decide, by decide, by decide⟩
  have hacc : acceptHash ("T1".data ++ List.replicate 70 'A') =
      some (List.replicate 70 'A') := by decide
  exact ⟨hacc, (accept_hash_hex70 _ hv).1 _ hacc⟩

/-! ## Claim C7: the file-type gate -/

/-- Core: a file name starts (in reverse) with a dot-free pattern
followed by a dot exactly when its dot-suffix equals that pattern. -/
theorem startsWith_ext_core (s' : List Char) (hdot : '.' ∉ s') :
    ∀ r : List Char, startsWithCL r (s' ++ ['.']) = true ↔
      (r.any (fun c => c == '.') = true ∧
        r.takeWhile (fun c => c ≠ '.') = s') := by
  induction s' with
  | nil =>
    intro r
    cases r with
    | nil => simp [startsWithCL]
    | cons c rest =>
      by_cases hc : c = '.'
      · subst hc
        simp [startsWithCL, List.takeWhile_cons]
      · simp [startsWithCL, List.takeWhile_cons, hc]
  | cons a as ih =>
    intro r
    have ha : a ≠ '.' := fun he => hdot (he ▸ List.mem_cons_self a as)
    have has : '.' ∉ as := fun hm => hdot (List.mem_cons_of_mem a hm)
    cases r with
    | nil => simp [startsWithCL]
    | cons c rest =>
      show ((c == a) && startsWithCL rest (as ++ ['.'])) = true ↔ _
      by_cases hca : c = a
      · subst hca
        rw [show (c == c) = true from beq_self_eq_true c, Bool.true_and]
        rw [ih has rest]
        simp [List.takeWhile_cons, ha]
      · rw [show (c == a) = false from beq_eq_false_iff_ne.mpr hca, Bool.false_and]
        constructor
        · intro hfalse
          exact absurd hfalse (by decide)
        · rintro ⟨-, htw⟩
          by_cases hcd : c = '.'
          · subst hcd
            simp [List.takeWhile_cons] at htw
          · rw [List.takeWhile_cons, if_pos (by simpa using hcd)] at htw
            exact absurd (List.head_eq_of_cons_eq htw) hca

/-- Ending in `'.' :: s` (for dot-free nonempty `s`) is the same as
having extension `'.' :: s`. -/
theorem endsWith_ext (s : List Char) (hdot : '.' ∉ s) (f : List Char) :
    endsWithCL f ('.' :: s) = true ↔ extOf f = some ('.' :: s) := by
  unfold endsWithCL extOf
  rw [show ('.' :: s).reverse = s.reverse ++ ['.'] by simp]
  rw [startsWith_ext_core s.reverse (by simpa using hdot) f.reverse]
  constructor
  · rintro ⟨hany, htw⟩
    rw [if_pos hany, htw]
    simp
  · intro hext
    by_cases hany : f.reverse.any (fun c => c == '.') = true
    · rw [if_pos hany] at hext
      refine ⟨hany, ?_⟩
      have := Option.some_injective _ hext
      have h2 := List.tail_eq_of_cons_eq this
      rw [← h2]
      simp
    · rw [if_neg hany] at hext
      cases hext

/-- **C7 counterexample.** The claim's gate (case-insensitive extension
in `{.c,.cc,.cpp,.cxx,.h,.hpp}`) disagrees with the code's gate
(`file.endswith((".c",".cc",".cpp"))`): `util.h` and `MAIN.CPP` pass
the claimed gate but are not fingerprinted. -/
theorem file_gate_counterexample :
    fileGate "util.h".data = false ∧ specFileGate "util.h".data = true ∧
    fileGate "MAIN.CPP".data = false ∧ specFileGate "MAIN.CPP".data = true := by
  decide

/-- **C7 (amended).** `hashing` fingerprints a file iff its name ends,
case-sensitively, with one of `.c`, `.cc`, `.cpp` — equivalently, iff
its extension (the suffix starting at the last dot) is exactly one of
those three strings.  `.cxx`, `.h`, `.hpp` and upper-case variants are
not fingerprinted. -/
theorem file_gate_ext_charact (files : List String) (f : String) :
    f ∈ collectFiles files ↔
      (f ∈ files ∧
        (extOf f.data = some ".c".data ∨ extOf f.data = some ".cc".data ∨
          extOf f.data = some ".cpp".data)) := by
  unfold collectFiles
  rw [List.mem_filter]
  have hgate : fileGate f.data = true ↔
      (extOf f.data = some ".c".data ∨ extOf f.data = some ".cc".data ∨
        extOf f.data = some ".cpp".data) := by
    unfold fileGate
    rw [Bool.or_eq_true, Bool.or_eq_true]
    rw [show ".c".data = '.' :: "c".data from rfl,
      show ".cc".data = '.' :: "cc".data from rfl,
      show ".cpp".data = '.' :: "cpp".data from rfl]
    rw [endsWith_ext "c".data (by decide) f.data,
      endsWith_ext "cc".data (by decide) f.data,
      endsWith_ext "cpp".data (by decide) f.data]
    rw [or_assoc]
  rw [hgate]

/-! ## Preprocessor: signature builder (C8), birth dates (C4),
meta tables (C9)

`process_single_repo` (`Preprocessor_lite.py`),
`process_single_repo_for_redundancy` (`preprocessor.py`) and
`process_single_repo` (`Preprocessor_full.py`) fold the per-tag
`fuzzy_<tag>.hidx` files of one repository, in lexicographic tag order,
into `signature : fp → [tag indices]` and
`temp_date_dict : fp → [dates]`, then record
`func_date_dict[fp] = sorted(temp_date_dict[fp])[0]`. -/

/-- Python whitespace, as recognised by `str.strip` / `str.isspace`. -/
def isPyWhitespaceChar (c : Char) : Bool :=
  c == ' ' || c == '\t' || c == '\n' || c == '\r' || c == '\x0b' || c == '\x0c'

/-- Python `line.strip()`. -/
def pyStrip (s : String) : String :=
  String.mk
    (((s.data.dropWhile isPyWhitespaceChar).reverse.dropWhile isPyWhitespaceChar).reverse)

/-- Python `line.split('\t')` on the character list. -/
def splitTabCL : List Char → List (List Char)
  | [] => [[]]
  | c :: cs =>
      if c = '\t' then [] :: splitTabCL cs
      else
        match splitTabCL cs with
        | [] => [[c]]
        | g :: gs => (c :: g) :: gs

/-- `line.split('\t')[0]` — the fingerprint token of a TagIndex data
line. -/
def headTab (line : String) : String :=
  String.mk ((splitTabCL line.data).headD [])

/-- One accumulated row of the signature builder: `signature[fp]` (the
tag indices) together with `temp_date_dict[fp]` (the per-tag dates).
The Python code keeps these in two dicts updated in lockstep under the
same keys and in the same insertion order. -/
structure BEntry where
  fp : String
  vers : List Nat
  dates : List String
deriving Repr, DecidableEq

/-- `signature[hashval].append(str(idx-1))` and
`temp_date_dict[hashval].append(date)`, with dict semantics: update the
existing key in place, or append a fresh key at the end. -/
def sigInsert : List BEntry → String → Nat → String → List BEntry
  | [], fp, i, d => [⟨fp, [i], [d]⟩]
  | e :: es, fp, i, d =>
      if e.fp = fp then ⟨e.fp, e.vers ++ [i], e.dates ++ [d]⟩ :: es
      else e :: sigInsert es fp i d

/-- Fold the data lines of one TagIndex (tag index `i`, date `d`) into
the accumulator. -/
def processTag (acc : List BEntry) (i : Nat) (d : String)
    (dataLines : List String) : List BEntry :=
  dataLines.foldl (fun a line => sigInsert a (headTab line) i d) acc

/-- Line selection of `Preprocessor_lite.process_single_repo`:
`body.split('\n')[1:-1]` then `if not line or line == ' ': continue` —
the header line AND the final data line are both dropped. -/
def liteDataLines (lines : List String) : List String :=
  ((lines.drop 1).dropLast).filter (fun l => !(l == "" || l == " "))

/-- Line selection of `preprocessor.py`
(`process_single_repo_for_redundancy`) and
`Preprocessor_full.process_single_repo`: `next(fp)` then every
remaining line, stripped, skipping blanks — only the header line is
dropped. -/
def procDataLines (lines : List String) : List String :=
  ((lines.drop 1).map pyStrip).filter (fun l => !(l == ""))

/-- `ver_date_dict[version_name] if version_name in ver_date_dict else
"NODATE"`. -/
def dateFor (vd : List (String × String)) (ver : String) : String :=
  (alLookup vd ver).getD "NODATE"

/-- The signature-building loop over the (lexicographically sorted)
tag list: the tag at position `i` contributes tag index `i`
(`str(idx-1)` in the source) and its date. -/
def buildRepo (dataLinesOf : List String → List String)
    (tags : List (String × List String)) (vd : List (String × String)) :
    List BEntry :=
  (tags.enum).foldl
    (fun acc iv => processTag acc iv.1 (dateFor vd iv.2.1) (dataLinesOf iv.2.2)) []

/-- The builder as implemented by `Preprocessor_lite.py`. -/
def liteBuildRepo (tags : List (String × List String))
    (vd : List (String × String)) : List BEntry :=
  buildRepo liteDataLines tags vd

/-- The builder as implemented by `preprocessor.py` /
`Preprocessor_full.py`. -/
def procBuildRepo (tags : List (String × List String))
    (vd : List (String × String)) : List BEntry :=
  buildRepo procDataLines tags vd

/-- `temp_date_dict[hashval].sort();
func_date_dict[hashval] = temp_date_dict[hashval][0]`. -/
def birthOf (dates : List String) : String := (pySort dates).headD ""

/-- The `funcDate` table: every fingerprint mapped to its birth date. -/
def funcDateOf (entries : List BEntry) : List (String × String) :=
  entries.map (fun e => (e.fp, birthOf e.dates))

/-- Modelled from the claim's words (for comparison with `strLe`): the
ordering "in which NODATE sorts before any real date". -/
def specDateLe (a b : String) : Bool :=
  if a == "NODATE" then true
  else if b == "NODATE" then false
  else strLe a b

/-- All fingerprints read from the data lines of all TagIndexes, with
multiplicity. -/
def extractedFps (dataLinesOf : List String → List String)
    (tags : List (String × List String)) : List String :=
  (tags.map (fun t => (dataLinesOf t.2).map headTab)).flatten

/-! ### Order facts about `lexLe`, and the minimum of `pySort` -/

theorem lexLe_refl (a : List Char) : lexLe a a = true := by
  induction a with
  | nil => rfl
  | cons c cs ih => simp [lexLe, ih]

theorem lexLe_total (a b : List Char) : lexLe a b = true ∨ lexLe b a = true := by
  induction a generalizing b with
  | nil => left; rfl
  | cons c cs ih =>
    cases b with
    | nil => right; rfl
    | cons d ds =>
      by_cases h1 : c.toNat < d.toNat
      · left
        simp [lexLe, h1]
      · by_cases h2 : d.toNat < c.toNat
        · right
          simp [lexLe, h2]
        · rcases ih ds with h | h <;> [left; right] <;>
            simp [lexLe, h1, h2, h]

theorem lexLe_trans {a b c : List Char} (hab : lexLe a b = true)
    (hbc : lexLe b c = true) : lexLe a c = true := by
  induction a generalizing b c with
  | nil => rfl
  | cons x xs ih =>
    cases b with
    | nil => exact absurd hab (by simp [lexLe])
    | cons y ys =>
      cases c with
      | nil => exact absurd hbc (by simp [lexLe])
      | cons z zs =>
        simp only [lexLe] at hab hbc ⊢
        by_cases hxy : x.toNat < y.toNat
        · by_cases hyz : y.toNat < z.toNat
          · rw [if_pos (by omega)]
          · rw [if_neg hyz] at hbc
            by_cases hzy : z.toNat < y.toNat
            · rw [if_pos hzy] at hbc
              exact absurd hbc (by decide)
            · rw [if_pos (by omega)]
        · rw [if_neg hxy] at hab
          by_cases hyx : y.toNat < x.toNat
          · rw [if_pos hyx] at hab
            exact absurd hab (by decide)
          · rw [if_neg hyx] at hab
            by_cases hyz : y.toNat < z.toNat
            · rw [if_pos (by omega)]
            · rw [if_neg hyz] at hbc
              by_cases hzy : z.toNat < y.toNat
              · rw [if_pos hzy] at hbc
                exact absurd hbc (by decide)
              · rw [if_neg hzy] at hbc
                rw [if_neg (by omega), if_neg (by omega)]
                exact ih hab hbc

theorem strLe_refl (a : String) : strLe a a = true := lexLe_refl a.data

theorem strLe_total (a b : String) : strLe a b = true ∨ strLe b a = true :=
  lexLe_total a.data b.data

theorem strLe_trans {a b c : String} (hab : strLe a b = true)
    (hbc : strLe b c = true) : strLe a c = true :=
  lexLe_trans hab hbc

theorem insertLe_ne_nil (x : String) (l : List String) : insertLe x l ≠ [] := by
  cases l with
  | nil => simp [insertLe]
  | cons y ys =>
    unfold insertLe
    by_cases h : strLe x y = true <;> simp [h]

theorem pySort_ne_nil {l : List String} (h : l ≠ []) : pySort l ≠ [] := by
  cases l with
  | nil => exact absurd rfl h
  | cons x xs => exact insertLe_ne_nil x (pySort xs)

theorem mem_insertLe {y x : String} {l : List String} :
    y ∈ insertLe x l ↔ y = x ∨ y ∈ l := by
  induction l with
  | nil => simp [insertLe]
  | cons z zs ih =>
    unfold insertLe
    by_cases h : strLe x z = true
    · simp [h]
    · simp only [if_neg h, List.mem_cons, ih]
      tauto

theorem mem_pySort {y : String} {l : List String} :
    y ∈ pySort l ↔ y ∈ l := by
  induction l with
  | nil => simp [pySort]
  | cons x xs ih =>
    unfold pySort
    rw [mem_insertLe, ih]
    simp

/-- The first element of the Python-sorted list is a member of the
original list and is `<=` (code-point lexicographic) every member. -/
theorem pySort_head_min {l : List String} (h : l ≠ []) :
    (pySort l).headD "" ∈ l ∧ ∀ d ∈ l, strLe ((pySort l).headD "") d = true := by
  induction l with
  | nil => exact absurd rfl h
  | cons x xs ih =>
    rw [show pySort (x :: xs) = insertLe x (pySort xs) from rfl]
    cases hxs : pySort xs with
    | nil =>
      have hxsnil : xs = [] := by
        cases xs with
        | nil => rfl
        | cons a as => exact absurd hxs (pySort_ne_nil (by simp))
      subst hxsnil
      refine ⟨by simp [insertLe], ?_⟩
      intro d hd
      rcases List.mem_singleton.mp hd with rfl
      simpa [insertLe] using strLe_refl d
    | cons y ys =>
      have hxsne : xs ≠ [] := by
        intro hc
        rw [hc] at hxs
        exact absurd hxs.symm (by simp [pySort])
      obtain ⟨hymem, hymin⟩ := ih hxsne
      rw [hxs] at hymem hymin
      simp only [List.headD_cons] at hymem hymin
      unfold insertLe
      by_cases hcmp : strLe x y = true
      · rw [if_pos hcmp]
        refine ⟨by simp, ?_⟩
        intro d hd
        rcases List.mem_cons.mp hd with rfl | hd'
        · simpa using strLe_refl d
        · simpa using strLe_trans hcmp (hymin d hd')
      · rw [if_neg hcmp]
        have hyx : strLe y x = true := by
          rcases strLe_total x y with hc | hc
          · exact absurd hc hcmp
          · exact hc
        refine ⟨by simp [List.mem_cons_of_mem _ hymem], ?_⟩
        intro d hd
        rcases List.mem_cons.mp hd with rfl | hd'
        · simpa using hyx
        · simpa using hymin d hd'

/-! ### Invariant: every signature row carries at least one date -/

theorem sigInsert_dates_ne_nil {acc : List BEntry}
    (h : ∀ e ∈ acc, e.dates ≠ []) (fp : String) (i : Nat) (d : String) :
    ∀ e ∈ sigInsert acc fp i d, e.dates ≠ [] := by
  induction acc with
  | nil =>
    intro e he
    rcases List.mem_singleton.mp he with rfl
    simp
  | cons a as ih =>
    intro e he
    unfold sigInsert at he
    by_cases hfp : a.fp = fp
    · rw [if_pos hfp] at he
      rcases List.mem_cons.mp he with rfl | he'
      · simp
      · exact h e (List.mem_cons_of_mem _ he')
    · rw [if_neg hfp] at he
      rcases List.mem_cons.mp he with rfl | he'
      · exact h e (List.mem_cons_self _ _)
      · exact ih (fun e' he' => h e' (List.mem_cons_of_mem _ he')) e he'

theorem processTag_dates_ne_nil {acc : List BEntry}
    (h : ∀ e ∈ acc, e.dates ≠ []) (i : Nat) (d : String)
    (ls : List String) :
    ∀ e ∈ processTag acc i d ls, e.dates ≠ [] := by
  induction ls generalizing acc with
  | nil => exact h
  | cons l ls ih =>
    exact ih (sigInsert_dates_ne_nil h (headTab l) i d)

theorem buildRepo_dates_ne_nil (dl : List String → List String)
    (tags : List (String × List String)) (vd : List (String × String)) :
    ∀ e ∈ buildRepo dl tags vd, e.dates ≠ [] := by
  unfold buildRepo
  have key : ∀ (ps : List (Nat × (String × List String))) (acc : List BEntry),
      (∀ e ∈ acc, e.dates ≠ []) →
      ∀ e ∈ ps.foldl
        (fun acc iv => processTag acc iv.1 (dateFor vd iv.2.1) (dl iv.2.2)) acc,
        e.dates ≠ [] := by
    intro ps
    induction ps with
    | nil =>
      intro acc h
      simpa using h
    | cons p ps ih =>
      intro acc h
      simp only [List.foldl_cons]
      exact ih _ (processTag_dates_ne_nil h _ _ _)
  exact key _ [] (by simp)

/-! ### Key-set lemmas for the signature accumulator -/

theorem sigInsert_keys (acc : List BEntry) (fp : String) (i : Nat) (d : String) :
    (sigInsert acc fp i d).map BEntry.fp =
      if fp ∈ acc.map BEntry.fp then acc.map BEntry.fp
      else acc.map BEntry.fp ++ [fp] := by
  induction acc with
  | nil => simp [sigInsert]
  | cons a as ih =>
    unfold sigInsert
    by_cases hfp : a.fp = fp
    · rw [if_pos hfp]
      simp [hfp]
    · rw [if_neg hfp]
      simp only [List.map_cons, ih]
      by_cases hmem : fp ∈ as.map BEntry.fp
      · rw [if_pos hmem, if_pos (by simp [hmem])]
      · rw [if_neg hmem, if_neg ?_]
        · simp
        · simp only [List.mem_cons]
          push_neg
          exact ⟨fun h => hfp h.symm, hmem⟩

theorem mem_sigInsert_keys {h fp : String} {acc : List BEntry} {i : Nat}
    {d : String} :
    h ∈ (sigInsert acc fp i d).map BEntry.fp ↔ h = fp ∨ h ∈ acc.map BEntry.fp := by
  rw [sigInsert_keys]
  by_cases hmem : fp ∈ acc.map BEntry.fp
  · rw [if_pos hmem]
    constructor
    · exact Or.inr
    · rintro (rfl | hh)
      exacts [hmem, hh]
  · rw [if_neg hmem]
    simp [or_comm]

theorem sigInsert_keys_nodup {acc : List BEntry}
    (h : (acc.map BEntry.fp).Nodup) (fp : String) (i : Nat) (d : String) :
    ((sigInsert acc fp i d).map BEntry.fp).Nodup := by
  rw [sigInsert_keys]
  by_cases hmem : fp ∈ acc.map BEntry.fp
  · rw [if_pos hmem]
    exact h
  · rw [if_neg hmem]
    refine List.Nodup.append h (List.nodup_singleton fp) ?_
    intro a ha hamem
    rcases List.mem_singleton.mp hamem with rfl
    exact hmem ha

theorem mem_processTag_keys {h : String} {acc : List BEntry} {i : Nat}
    {d : String} {ls : List String} :
    h ∈ (processTag acc i d ls).map BEntry.fp ↔
      h ∈ acc.map BEntry.fp ∨ h ∈ ls.map headTab := by
  induction ls generalizing acc with
  | nil => simp [processTag]
  | cons l ls ih =>
    show h ∈ (processTag (sigInsert acc (headTab l) i d) i d ls).map BEntry.fp ↔ _
    rw [ih, mem_sigInsert_keys]
    simp only [List.map_cons, List.mem_cons]
    tauto

theorem processTag_keys_nodup {acc : List BEntry} {i : Nat} {d : String}
    {ls : List String} (h : (acc.map BEntry.fp).Nodup) :
    ((processTag acc i d ls).map BEntry.fp).Nodup := by
  induction ls generalizing acc with
  | nil => exact h
  | cons l ls ih => exact ih (sigInsert_keys_nodup h _ _ _)

theorem buildRepo_keys_nodup (dl : List String → List String)
    (tags : List (String × List String)) (vd : List (String × String)) :
    ((buildRepo dl tags vd).map BEntry.fp).Nodup := by
  unfold buildRepo
  have key : ∀ (ps : List (Nat × (String × List String))) (acc : List BEntry),
      (acc.map BEntry.fp).Nodup →
      ((ps.foldl
        (fun acc iv => processTag acc iv.1 (dateFor vd iv.2.1) (dl iv.2.2))
        acc).map BEntry.fp).Nodup := by
    intro ps
    induction ps with
    | nil =>
      intro acc h
      simpa using h
    | cons p ps ih =>
      intro acc h
      simp only [List.foldl_cons]
      exact ih _ (processTag_keys_nodup h)
  exact key _ [] (by simp)

theorem mem_buildRepo_keys {h : String} (dl : List String → List String)
    (tags : List (String × List String)) (vd : List (String × String)) :
    h ∈ (buildRepo dl tags vd).map BEntry.fp ↔ h ∈ extractedFps dl tags := by
  unfold buildRepo
  have key : ∀ (ps : List (Nat × (String × List String))) (acc : List BEntry),
      h ∈ ((ps.foldl
        (fun acc iv => processTag acc iv.1 (dateFor vd iv.2.1) (dl iv.2.2))
        acc).map BEntry.fp) ↔
      h ∈ acc.map BEntry.fp ∨
        h ∈ (ps.map (fun iv => (dl iv.2.2).map headTab)).flatten := by
    intro ps
    induction ps with
    | nil =>
      intro acc
      simp
    | cons p ps ih =>
      intro acc
      simp only [List.foldl_cons, List.map_cons, List.flatten_cons]
      rw [ih, mem_processTag_keys]
      simp only [List.mem_append]
      tauto
  rw [key tags.enum []]
  unfold extractedFps
  have henum : (tags.enum.map (fun iv => (dl iv.2.2).map headTab)) =
      tags.map (fun t => (dl t.2).map headTab) := by
    rw [show (fun iv : Nat × (String × List String) => (dl iv.2.2).map headTab) =
      (fun t : String × List String => (dl t.2).map headTab) ∘ Prod.snd from rfl]
    rw [← List.map_map, List.enum_map_snd]
  rw [henum]
  simp

/-! ## Claim C4: birth-date selection -/

/-- **C4 counterexample.** A repository with tags `v1` (no known date,
so `"NODATE"`) and `v2` (date `2020-01-01`), both shipping fingerprint
`F`.  The code records birth date `2020-01-01` — under Python's plain
code-point string sort, `"NODATE"` (leading `'N'`, code point 78) sorts
AFTER any `YYYY-MM-DD` date (leading digit ≤ 57), not before as the
claim states; and the claimed invariant `birth[fp] ≤ every listed date
with NODATE smallest` fails: `specDateLe "2020-01-01" "NODATE" = false`
even though `"NODATE"` is listed against `F`. -/
theorem birth_date_counterexample :
    procBuildRepo [("v1", ["hdr", "F\t/f.c"]), ("v2", ["hdr", "F\t/f.c"])]
        [("v2", "2020-01-01")] =
      [⟨"F", [0, 1], ["NODATE", "2020-01-01"]⟩] ∧
    funcDateOf
        (procBuildRepo [("v1", ["hdr", "F\t/f.c"]), ("v2", ["hdr", "F\t/f.c"])]
          [("v2", "2020-01-01")]) = [("F", "2020-01-01")] ∧
    specDateLe "2020-01-01" "NODATE" = false := by
  decide

/-- **C4 (amended).** For every repository and fingerprint, the recorded
birth date is the minimum of the per-tag date list under Python's plain
code-point lexicographic ordering (`strLe`), in which `"NODATE"` sorts
AFTER any real `YYYY-MM-DD` date: the birth date is a member of the
list and `strLe`-below every listed date. -/
theorem birth_date_min :
    (∀ (dl : List String → List String) (tags : List (String × List String))
        (vd : List (String × String)) (e : BEntry), e ∈ buildRepo dl tags vd →
        birthOf e.dates ∈ e.dates ∧
          ∀ d ∈ e.dates, strLe (birthOf e.dates) d = true) ∧
    strLe "NODATE" "2020-01-01" = false ∧ strLe "2020-01-01" "NODATE" = true := by
  refine ⟨?_, by decide, by decide⟩
  intro dl tags vd e he
  have hne := buildRepo_dates_ne_nil dl tags vd e he
  obtain ⟨h1, h2⟩ := pySort_head_min hne
  exact ⟨h1, h2⟩

/-- Witness for C4 (amended) at the concrete repository of the
counterexample. -/
theorem birth_date_min_witness :
    birthOf ["NODATE", "2020-01-01"] ∈ ["NODATE", "2020-01-01"] ∧
    ∀ d ∈ ["NODATE", "2020-01-01"],
      strLe (birthOf ["NODATE", "2020-01-01"]) d = true :=
  birth_date_min.1 procDataLines
    [("v1", ["hdr", "F\t/f.c"]), ("v2", ["hdr", "F\t/f.c"])]
    [("v2", "2020-01-01")]
    ⟨"F", [0, 1], ["NODATE", "2020-01-01"]⟩ (by decide)

/-! ## Claim C8: signature-builder line handling -/

/-- **C8.** `Preprocessor_lite.process_single_repo` reads the body
lines as `body.split('\n')[1:-1]`, which drops the final data line of
every TagIndex, so fingerprint `B` of the last line never reaches the
RepoSignature; `preprocessor.py` (`next(fp)` then every line) and
`Preprocessor_full.py` keep it, as the claim (and spec §4.3) states. -/
theorem lite_drops_last_line :
    (liteBuildRepo [("v1", ["repo\t1\t2\t7", "A\t/a.c", "B\t/b.c"])] []).map
        BEntry.fp = ["A"] ∧
    (procBuildRepo [("v1", ["repo\t1\t2\t7", "A\t/a.c", "B\t/b.c"])] []).map
        BEntry.fp = ["A", "B"] := by
  decide

/-! ## Claim C9: meta-table semantics -/

/-- One entry of `initialSigs/<repo>_sig`: `{hash, vers}`. -/
structure SigEntry where
  hash : String
  vers : List Nat
deriving Repr, DecidableEq

/-- The signature list saved by the builder (`{"hash": fp, "vers":
signature[fp]}` in insertion order). -/
def toSig (entries : List BEntry) : List SigEntry :=
  entries.map (fun e => ⟨e.fp, e.vers⟩)

/-- The per-repo meta record: `ave_funcs[repo]` and `all_funcs[repo]`. -/
structure MetaOut where
  aveFuncs : Nat
  allFuncs : Nat
deriving Repr, DecidableEq

/-- The per-repo computation of `save_meta_infos`
(`Preprocessor_lite.py`) / `process_repo_meta_for_save`
(`preprocessor.py`): skip when the tag count is zero, otherwise
`tot_funcs = len(json)`, `ave_funcs = int(tot_funcs/tot_vers)`
(floor division on non-negative values), `all_funcs = tot_funcs`. -/
def saveMetaRepo (sig : List SigEntry) (totVers : Nat) : Option MetaOut :=
  if totVers = 0 then none
  else some ⟨sig.length / totVers, sig.length⟩

/-- Modelled from the claim's words (for comparison with
`saveMetaRepo`): "the total number of function occurrences across all
of the repository's tags" — each fingerprint counted once per tag that
contains it. -/
def totalOccurrences (sig : List SigEntry) : Nat :=
  (sig.map (fun e => e.vers.length)).sum

/-- **C9 counterexample.** A repository with two tags both shipping the
single fingerprint `F`: the signature has one entry with `vers =
[0, 1]`, so `all_funcs = 1`, while the number of function occurrences
across all tags is `2`. -/
theorem meta_counterexample :
    saveMetaRepo
        (toSig (procBuildRepo
          [("v1", ["hdr", "F\t/f.c"]), ("v2", ["hdr", "F\t/f.c"])] [])) 2 =
      some ⟨0, 1⟩ ∧
    totalOccurrences
        (toSig (procBuildRepo
          [("v1", ["hdr", "F\t/f.c"]), ("v2", ["hdr", "F\t/f.c"])] [])) = 2 ∧
    (1 : Nat) ≠ 2 := by
  decide

/-- **C9 (amended).** For every repository: `all_funcs[repo]` is the
number of entries of the signature list — the number of DISTINCT
fingerprints appearing in the repository's TagIndex data lines, not the
total across tags — and `ave_funcs[repo]` is the integer floor of that
count divided by the tag count `V`. -/
theorem meta_tables (tags : List (String × List String))
    (vd : List (String × String)) (V : Nat) (hV : V ≠ 0) :
    saveMetaRepo (toSig (procBuildRepo tags vd)) V =
      some ⟨(toSig (procBuildRepo tags vd)).length / V,
            (toSig (procBuildRepo tags vd)).length⟩ ∧
    ((toSig (procBuildRepo tags vd)).map SigEntry.hash).Nodup ∧
    (∀ h, h ∈ (toSig (procBuildRepo tags vd)).map SigEntry.hash ↔
      h ∈ extractedFps procDataLines tags) := by
  have hkeys : (toSig (procBuildRepo tags vd)).map SigEntry.hash =
      (procBuildRepo tags vd).map BEntry.fp := by
    unfold toSig
    rw [List.map_map]
    rfl
  refine ⟨?_, ?_, ?_⟩
  · unfold saveMetaRepo
    rw [if_neg hV]
  · rw [hkeys]
    exact buildRepo_keys_nodup _ _ _
  · intro h
    rw [hkeys]
    exact mem_buildRepo_keys _ _ _

/-- Witness for C9 (amended) at the counterexample repository. -/
theorem meta_tables_witness :
    saveMetaRepo
        (toSig (procBuildRepo
          [("v1", ["hdr", "F\t/f.c"]), ("v2", ["hdr", "F\t/f.c"])] [])) 2 =
      some ⟨0, 1⟩ :=
  ((meta_tables [("v1", ["hdr", "F\t/f.c"]), ("v2", ["hdr", "F\t/f.c"])] []
    2 (by decide)).1).trans (by decide)

/-! ## Component reducer (C5): `CodeSegmenter.segment_code`
(`Preprocessor_lite.py` lines 330–411)

Inputs, per reduced repository `S`: `S`'s signature list, the
`uniqueFuncs` table (`fp → repos shipping fp`), the per-repo funcDate
tables, and `ave_funcs`.  θ_REDUCE is `self.config.theta = 0.1`. -/

/-- The per-(fingerprint, competitor) donor test of `segment_code`:

```
if hashval not in ver_date_dict[s]: continue
if (ver_date_dict[s][hashval] == "NODATE" or
    ver_date_dict[oss][hashval] == "NODATE"):
    candi_x[oss] += 1; temp[oss].append(hashval)
elif ver_date_dict[oss][hashval] <= ver_date_dict[s][hashval]:
    candi_x[oss] += 1; temp[oss].append(hashval)
```

A missing `ver_date_dict[oss][hashval]` raises `KeyError`, swallowed by
the bare `except: pass` (when `ver_date_dict[s][hashval]` is `"NODATE"`
the `or` short-circuits before the competitor's date is read). -/
def donorCond (funcDates : String → List (String × String)) (s x : String)
    (h : String) : Bool :=
  match alLookup (funcDates s) h with
  | none => false
  | some ds =>
      if ds == "NODATE" then true
      else
        match alLookup (funcDates x) h with
        | none => false
        | some dx => dx == "NODATE" || strLe dx ds

/-- `candi_x[x]` after the scan of `S`'s signature list (each signature
entry contributes at most once per competitor, since `unique_funcs`
lists every repo at most once per fingerprint). -/
def candiCount (uniq : String → List String)
    (funcDates : String → List (String × String)) (s : String)
    (sigS : List SigEntry) (x : String) : Nat :=
  sigS.countP (fun e =>
    (uniq e.hash).contains x && !(x == s) && donorCond funcDates s x e.hash)

/-- `temp[x]`: the fingerprints queued for removal should `x` qualify. -/
def tempList (uniq : String → List String)
    (funcDates : String → List (String × String)) (s : String)
    (sigS : List SigEntry) (x : String) : List String :=
  (sigS.filter (fun e =>
    (uniq e.hash).contains x && !(x == s) && donorCond funcDates s x e.hash)).map
    SigEntry.hash

/-- The competitor repos encountered while scanning `S` (the keys of
`candi_x`/`temp`). -/
def competitors (uniq : String → List String) (s : String)
    (sigS : List SigEntry) : List String :=
  ((sigS.map (fun e => uniq e.hash)).flatten).filter (fun x => !(x == s))

/-- The qualification test of `segment_code`:

```
if ave_funcs[x] == 0 or len(ver_date_dict[x]) == 0: continue
if float(candi_x[x]) / float(ave_funcs[x]) >= self.config.theta: ...
```
-/
def qualifies (uniq : String → List String)
    (funcDates : String → List (String × String)) (ave : String → Nat)
    (s : String) (sigS : List SigEntry) (x : String) : Bool :=
  !(ave x == 0) && !(funcDates x).isEmpty &&
    decide ((candiCount uniq funcDates s sigS x : ℚ) / (ave x : ℚ) ≥ (1 / 10 : ℚ))

/-- `segment_code` for one repository `S`: the resulting ComponentDB
entry, paired with `true` when the initial signature file was copied
verbatim (`if s not in possible_members: shutil.copy(...)`) and `false`
when the filtered list was written. -/
def reduceRepo (uniq : String → List String)
    (funcDates : String → List (String × String)) (ave : String → Nat)
    (s : String) (sigS : List SigEntry) : List SigEntry × Bool :=
  let comps := competitors uniq s sigS
  if comps.all (fun x => !(qualifies uniq funcDates ave s sigS x)) then
    (sigS, true)
  else
    (sigS.filter (fun e =>
      !(comps.any (fun x => qualifies uniq funcDates ave s sigS x &&
        (tempList uniq funcDates s sigS x).contains e.hash))), false)

theorem mem_competitors_of_tempList
    {uniq : String → List String}
    {funcDates : String → List (String × String)} {s : String}
    {sigS : List SigEntry} {x h : String}
    (hmem : h ∈ tempList uniq funcDates s sigS x) :
    x ∈ competitors uniq s sigS := by
  unfold tempList at hmem
  rcases List.mem_map.mp hmem with ⟨e, hef, -⟩
  have hp := List.of_mem_filter hef
  have hes := List.mem_of_mem_filter hef
  rw [Bool.and_assoc] at hp
  rcases (Bool.and_eq_true _ _).mp hp with ⟨hcont, hrest⟩
  rcases (Bool.and_eq_true _ _).mp hrest with ⟨hne, -⟩
  unfold competitors
  apply List.mem_filter.mpr
  refine ⟨List.mem_flatten.mpr ⟨uniq e.hash, ?_, ?_⟩, hne⟩
  · exact List.mem_map.mpr ⟨e, hes, rfl⟩
  · exact List.mem_of_elem_eq_true hcont

/-- **C5.** Reducer attribution, in three parts.
(1) Removal: every fingerprint queued in `temp[X]` for a qualifying
competitor `X` (`ave_funcs[X] ≠ 0`, nonempty funcDate table,
`candi[X]/ave_funcs[X] ≥ 0.1`) is absent from `S`'s ComponentDB entry.
(2) Verbatim copy: when no competitor qualifies, `S`'s initial
signature is copied unchanged.
(3) Retention: a fingerprint whose birth date in `S` is a real date
strictly earlier (code-point order) than every competitor's dated
entry — in particular the earliest-born repo of spec scenario 6 —
survives `S`'s own reduction. -/
theorem reducer_attribution :
    (∀ (uniq : String → List String)
        (funcDates : String → List (String × String)) (ave : String → Nat)
        (s : String) (sigS : List SigEntry) (x h : String),
        qualifies uniq funcDates ave s sigS x = true →
        h ∈ tempList uniq funcDates s sigS x →
        h ∉ (reduceRepo uniq funcDates ave s sigS).1.map SigEntry.hash) ∧
    (∀ (uniq : String → List String)
        (funcDates : String → List (String × String)) (ave : String → Nat)
        (s : String) (sigS : List SigEntry),
        (∀ x ∈ competitors uniq s sigS,
          qualifies uniq funcDates ave s sigS x = false) →
        reduceRepo uniq funcDates ave s sigS = (sigS, true)) ∧
    (∀ (uniq : String → List String)
        (funcDates : String → List (String × String)) (ave : String → Nat)
        (s : String) (sigS : List SigEntry) (F ds : String),
        F ∈ sigS.map SigEntry.hash →
        alLookup (funcDates s) F = some ds → ds ≠ "NODATE" →
        (∀ x, x ≠ s → ∀ dx, alLookup (funcDates x) F = some dx →
          dx ≠ "NODATE" ∧ strLe dx ds = false) →
        F ∈ (reduceRepo uniq funcDates ave s sigS).1.map SigEntry.hash) := by
  refine ⟨?_, ?_, ?_⟩
  · -- removal
    intro uniq funcDates ave s sigS x h hq hmem
    have hx : x ∈ competitors uniq s sigS := mem_competitors_of_tempList hmem
    unfold reduceRepo
    rw [if_neg ?_]
    · intro hh
      rcases List.mem_map.mp hh with ⟨e, hef, hehash⟩
      have hp := List.of_mem_filter hef
      rw [Bool.not_eq_true', List.any_eq_false] at hp
      have := hp x hx
      rw [hq, Bool.true_and, hehash] at this
      exact this (List.elem_eq_true_of_mem hmem)
    · intro hall
      have := List.all_eq_true.mp hall x hx
      rw [hq] at this
      exact absurd this (by decide)
  · -- verbatim copy
    intro uniq funcDates ave s sigS hnone
    unfold reduceRepo
    rw [if_pos]
    exact List.all_eq_true.mpr fun x hx => by rw [hnone x hx]; rfl
  · -- retention
    intro uniq funcDates ave s sigS F ds hmem hs hds hothers
    have hnotemp : ∀ x, F ∉ tempList uniq funcDates s sigS x := by
      intro x hFt
      rcases List.mem_map.mp hFt with ⟨e, hef, hehash⟩
      have hp := List.of_mem_filter hef
      rw [Bool.and_assoc] at hp
      rcases (Bool.and_eq_true _ _).mp hp with ⟨-, hrest⟩
      rcases (Bool.and_eq_true _ _).mp hrest with ⟨hne, hdonor⟩
      have hxs : x ≠ s := by
        intro hc
        rw [hc] at hne
        simp at hne
      rw [hehash] at hdonor
      unfold donorCond at hdonor
      rw [hs] at hdonor
      have hdonor2 : (if ds == "NODATE" then true
          else
            match alLookup (funcDates x) F with
            | none => false
            | some dx => dx == "NODATE" || strLe dx ds) = true := hdonor
      rw [if_neg (by simpa using hds)] at hdonor2
      cases hlk : alLookup (funcDates x) F with
      | none =>
        rw [hlk] at hdonor2
        exact Bool.false_ne_true hdonor2
      | some dx =>
        rw [hlk] at hdonor2
        have hdonor3 : (dx == "NODATE" || strLe dx ds) = true := hdonor2
        obtain ⟨hdx1, hdx2⟩ := hothers x hxs dx hlk
        rw [Bool.or_eq_true] at hdonor3
        rcases hdonor3 with hc | hc
        · exact hdx1 (by simpa using hc)
        · rw [hdx2] at hc
          exact absurd hc (by decide)
    rcases List.mem_map.mp hmem with ⟨e, hes, hehash⟩
    unfold reduceRepo
    by_cases hcase : (competitors uniq s sigS).all
        (fun x => !(qualifies uniq funcDates ave s sigS x)) = true
    · rw [if_pos hcase]
      exact hmem
    · rw [if_neg hcase]
      apply List.mem_map.mpr
      refine ⟨e, List.mem_filter.mpr ⟨hes, ?_⟩, hehash⟩
      rw [Bool.not_eq_true', List.any_eq_false]
      intro x hx
      intro hc
      rcases (Bool.and_eq_true _ _).mp hc with ⟨-, hcont⟩
      rw [hehash] at hcont
      exact hnotemp x (List.mem_of_elem_eq_true hcont)

/-- The threshold test `c / a ≥ 0.1` over `ℚ`, reduced to natural
arithmetic (`c / 0 = 0` in `ℚ`, matching Python's guard `ave == 0`
which is checked before the division ever happens). -/
theorem theta_gate (c a : Nat) :
    ((c : ℚ) / (a : ℚ) ≥ (1 / 10 : ℚ)) ↔ (0 < a ∧ a ≤ 10 * c) := by
  rcases Nat.eq_zero_or_pos a with rfl | ha
  · simp
  · have ha' : (0 : ℚ) < a := by exact_mod_cast ha
    rw [ge_iff_le, div_le_div_iff₀ (by norm_num : (0 : ℚ) < 10) ha']
    rw [one_mul, show ((c : ℚ) * 10) = ((10 * c : Nat) : ℚ) by push_cast; ring]
    rw [Nat.cast_le]
    simp [ha]

/-- Concrete reducer inputs realising spec scenario 6: repos `X` and
`Y` both ship fingerprint `F`; `birth[X][F] = 2020-01-01`,
`birth[Y][F] = 2021-06-15`; `ave_funcs = 1` for both. -/
def uniqW : String → List String := fun h => if h == "F" then ["X", "Y"] else []

def fdW : String → List (String × String) := fun r =>
  if r == "X" then [("F", "2020-01-01")]
  else if r == "Y" then [("F", "2021-06-15")] else []

def aveW : String → Nat := fun r => if r == "X" || r == "Y" then 1 else 0

/-- Witness for C5: reducing `Y` removes `F` from `Y`'s entry (donor
`X` qualifies), while reducing `X` keeps `F`. -/
theorem reducer_attribution_witness :
    "F" ∉ ((reduceRepo uniqW fdW aveW "Y" [⟨"F", [0]⟩]).1.map SigEntry.hash) ∧
    "F" ∈ ((reduceRepo uniqW fdW aveW "X" [⟨"F", [0]⟩]).1.map SigEntry.hash) := by
  have hq : qualifies uniqW fdW aveW "Y" [⟨"F", [0]⟩] "X" = true := by
    have hc : candiCount uniqW fdW "Y" [⟨"F", [0]⟩] "X" = 1 := by decide
    unfold qualifies
    rw [hc]
    have hgate : ((1 : Nat) : ℚ) / ((aveW "X" : Nat) : ℚ) ≥ (1 / 10 : ℚ) := by
      rw [show aveW "X" = 1 from by decide]
      norm_num
    rw [decide_eq_true hgate]
    decide
  constructor
  · exact reducer_attribution.1 uniqW fdW aveW "Y" [⟨"F", [0]⟩] "X" "F"
      hq (by decide)
  · refine reducer_attribution.2.2 uniqW fdW aveW "X" [⟨"F", [0]⟩] "F"
      "2020-01-01" (by decide) (by decide) (by decide) ?_
    intro x hx dx hdx
    by_cases hY : x = "Y"
    · subst hY
      have : dx = "2021-06-15" := by
        have := hdx
        rw [show fdW "Y" = [("F", "2021-06-15")] from rfl] at this
        simpa [alLookup] using this.symm
      subst this
      exact ⟨by decide, by decide⟩
    · exfalso
      have : fdW x = [] := by
        unfold fdW
        rw [if_neg (by simpa using hx), if_neg (by simpa using hY)]
      rw [this] at hdx
      simp [alLookup] at hdx

/-! ## Detector (C1, C2, C3): `process_component` / `_predict_version`
/ `_analyze_usage` (`src/detector/Detector.py`) and
`process_single_component` (`src/src/detector/Detector.py`)

Version scores are Python floats (`log (V/k)` weights); they are
modelled by the elements of an arbitrary `LinearOrderedField` — `ℝ`
hosts the actual logarithms, `ℚ` the concrete evaluations.  Both
implementations pick the version with the greatest score, first
encountered: `max(ver_predict.items(), key=...)` keeps the first
maximal element, and `sorted(..., reverse=True)[0]` is the same element
because Python's sort is stable and `reverse=True` does not reorder
equal elements. -/

/-- `commonFunc`: the component fingerprints present in the target map
(`for hashval in componentDB[OSS]: if hashval in inputDict: ...`). -/
def commonFuncs (componentFps targetKeys : List String) : List String :=
  componentFps.filter (fun h => targetKeys.contains h)

/-- `ver_predict = {ver: 0.0 for ver in all_vers}` — an
insertion-ordered dict, modelled as an association list in `allVers`
order. -/
def initScores {α : Type} [LinearOrderedField α] (allVers : List String) :
    List (String × α) :=
  allVers.map (fun v => (v, 0))

/-- `ver_predict[ver] += w`: update the first (unique) entry with that
key.  Python raises `KeyError` on a missing key, aborting the whole
component; a missing key is modelled as a no-op and excluded by the
well-formedness hypotheses of the theorems. -/
def scoreAdd {α : Type} [LinearOrderedField α] :
    List (String × α) → String → α → List (String × α)
  | [], _, _ => []
  | (u, x) :: rest, v, w =>
      if u = v then (u, x + w) :: rest else (u, x) :: scoreAdd rest v w

/-- The contribution of one `initialSigs` entry `{hash, vers}`:
`if hash_val in common_funcs: for ver_idx in ver_list:
ver_predict[idx2ver[ver_idx]] += weights[hash_val]`. -/
def addEntryScores {α : Type} [LinearOrderedField α]
    (idx2ver : Nat → Option String) (weights : String → α)
    (common : List String) (scores : List (String × α)) (e : SigEntry) :
    List (String × α) :=
  if common.contains e.hash then
    e.vers.foldl (fun sc i =>
      match idx2ver i with
      | some v => scoreAdd sc v (weights e.hash)
      | none => sc) scores
  else scores

/-- The full scoring pass over the signature file. -/
def computeScores {α : Type} [LinearOrderedField α] (allVers : List String)
    (idx2ver : Nat → Option String) (weights : String → α)
    (sig : List SigEntry) (common : List String) : List (String × α) :=
  sig.foldl (addEntryScores idx2ver weights common) (initScores allVers)

/-- The comparison step of Python's `max`: replace the current best
only on a strictly greater key, so the first maximal element wins. -/
def pickMax {α : Type} [LinearOrderedField α] (best x : String × α) :
    String × α :=
  if best.2 < x.2 then x else best

/-- `max(ver_predict.items(), key=lambda x: x[1])[0]` — the first
maximal element in iteration (= insertion) order; equal to
`sorted(..., key=..., reverse=True)[0][0]` by stability.  `none` when
the dict is empty (Python raises, and the component is skipped). -/
def predictVer {α : Type} [LinearOrderedField α]
    (scores : List (String × α)) : Option String :=
  match scores with
  | [] => none
  | s :: rest => some ((rest.foldl pickMax s).1)

/-- The score recorded for version `v` (0 when absent). -/
def scoreOf {α : Type} [LinearOrderedField α] (scores : List (String × α))
    (v : String) : α :=
  match scores.find? (fun e => e.1 == v) with
  | some e => e.2
  | none => 0

/-- `any(p in t for p in paths for t in target_paths)` — the substring
relocation test. -/
def anySubPath (ps ts : List String) : Bool :=
  ps.any (fun p => ts.any (fun t => pyIn p t))

/-- One fingerprint of the predicted version, classified by
`_analyze_usage`.  State: `(used, unused, modified, str_change)`. -/
def analyzeStep (targetMap : List (String × List String))
    (dist : String → String → Nat) (dMod : Nat)
    (st : Nat × Nat × Nat × Bool) (e : String × List String) :
    Nat × Nat × Nat × Bool :=
  match alLookup targetMap e.1 with
  | some tpaths =>
      (st.1 + 1, st.2.1, st.2.2.1, st.2.2.2 || !(anySubPath e.2 tpaths))
  | none =>
      match targetMap.find? (fun t => decide (dist e.1 t.1 ≤ dMod)) with
      | some t =>
          (st.1, st.2.1, st.2.2.1 + 1, st.2.2.2 || !(anySubPath e.2 t.2))
      | none => (st.1, st.2.1 + 1, st.2.2.1, st.2.2.2)

/-- `_analyze_usage`: classify every fingerprint of the predicted
version's TagIndex against the target map. -/
def analyzeUsage (predMap targetMap : List (String × List String))
    (dist : String → String → Nat) (dMod : Nat) : Nat × Nat × Nat × Bool :=
  predMap.foldl (analyzeStep targetMap dist dMod) (0, 0, 0, false)

/-- One emitted detector record
(`input_repo, repo_name, ver, used, unused, modified, str_change`). -/
structure DetectResult where
  repo : String
  ver : String
  used : Nat
  unused : Nat
  modified : Nat
  strChange : Bool
deriving Repr, DecidableEq

/-- `process_component` / `process_single_component` for one component:
the coverage gate (`ave = 0` skip, `common/ave ≥ θ` with θ = 0.1), then
version prediction, then usage classification.  `none` means no record
is emitted. -/
def processComponent {α : Type} [LinearOrderedField α] (repoName : String)
    (componentFps : List String) (ave : Nat) (allVers : List String)
    (idx2ver : Nat → Option String) (weights : String → α)
    (sig : List SigEntry) (targetMap : List (String × List String))
    (predMapOf : String → List (String × List String))
    (dist : String → String → Nat) (dMod : Nat) : Option DetectResult :=
  if ave = 0 then none
  else
    if ((commonFuncs componentFps (targetMap.map Prod.fst)).length : ℚ) /
        (ave : ℚ) ≥ (1 / 10 : ℚ) then
      match predictVer (computeScores allVers idx2ver weights sig
          (commonFuncs componentFps (targetMap.map Prod.fst))) with
      | none => none
      | some pv =>
          some ⟨repoName, pv,
            (analyzeUsage (predMapOf pv) targetMap dist dMod).1,
            (analyzeUsage (predMapOf pv) targetMap dist dMod).2.1,
            (analyzeUsage (predMapOf pv) targetMap dist dMod).2.2.1,
            (analyzeUsage (predMapOf pv) targetMap dist dMod).2.2.2⟩
    else none

/-! ### The first-maximum characterisation of `pickMax` folds -/

section PredictLemmas

variable {α : Type} [LinearOrderedField α]

theorem foldl_pickMax_mem (rest : List (String × α)) (s : String × α) :
    rest.foldl pickMax s ∈ s :: rest := by
  induction rest generalizing s with
  | nil => simp
  | cons x rs ih =>
    show rs.foldl pickMax (pickMax s x) ∈ s :: x :: rs
    have h := ih (pickMax s x)
    by_cases hlt : s.2 < x.2
    · rw [show pickMax s x = x from by unfold pickMax; rw [if_pos hlt]] at h ⊢
      rcases List.mem_cons.mp h with he | he
      · exact List.mem_cons.mpr (Or.inr (by rw [he]; exact List.mem_cons_self _ _))
      · exact List.mem_cons.mpr (Or.inr (List.mem_cons_of_mem _ he))
    · rw [show pickMax s x = s from by unfold pickMax; rw [if_neg hlt]] at h ⊢
      rcases List.mem_cons.mp h with he | he
      · exact List.mem_cons.mpr (Or.inl he)
      · exact List.mem_cons.mpr (Or.inr (List.mem_cons_of_mem _ he))

theorem foldl_pickMax_ge (rest : List (String × α)) (s : String × α) :
    ∀ y ∈ s :: rest, y.2 ≤ (rest.foldl pickMax s).2 := by
  induction rest generalizing s with
  | nil =>
    intro y hy
    rcases List.mem_singleton.mp hy with rfl
    exact le_refl _
  | cons x rs ih =>
    intro y hy
    have hstep : s.2 ≤ (pickMax s x).2 ∧ x.2 ≤ (pickMax s x).2 := by
      unfold pickMax
      by_cases hlt : s.2 < x.2
      · rw [if_pos hlt]
        exact ⟨le_of_lt hlt, le_refl _⟩
      · rw [if_neg hlt]
        exact ⟨le_refl _, le_of_not_lt hlt⟩
    have hrec : (pickMax s x).2 ≤ ((x :: rs).foldl pickMax s).2 := by
      show (pickMax s x).2 ≤ (rs.foldl pickMax (pickMax s x)).2
      exact ih (pickMax s x) _ (List.mem_cons_self _ _)
    rcases List.mem_cons.mp hy with rfl | hy'
    · exact le_trans hstep.1 hrec
    · rcases List.mem_cons.mp hy' with rfl | hy''
      · exact le_trans hstep.2 hrec
      · exact ih (pickMax s x) y (List.mem_cons_of_mem _ hy'')

theorem foldl_pickMax_first (rest : List (String × α)) (s : String × α) :
    ∃ l1 l2, s :: rest = l1 ++ (rest.foldl pickMax s) :: l2 ∧
      ∀ y ∈ l1, y.2 < (rest.foldl pickMax s).2 := by
  induction rest generalizing s with
  | nil => exact ⟨[], [], rfl, by simp⟩
  | cons x rs ih =>
    show ∃ l1 l2, s :: x :: rs = l1 ++ (rs.foldl pickMax (pickMax s x)) :: l2 ∧
      ∀ y ∈ l1, y.2 < (rs.foldl pickMax (pickMax s x)).2
    by_cases hlt : s.2 < x.2
    · rw [show pickMax s x = x from by unfold pickMax; rw [if_pos hlt]]
      obtain ⟨l1, l2, heq, hl1⟩ := ih x
      refine ⟨s :: l1, l2, by rw [List.cons_append, ← heq], ?_⟩
      intro y hy
      rcases List.mem_cons.mp hy with rfl | hy'
      · have hx : x.2 ≤ (rs.foldl pickMax x).2 :=
          foldl_pickMax_ge rs x x (List.mem_cons_self _ _)
        exact lt_of_lt_of_le hlt hx
      · exact hl1 y hy'
    · rw [show pickMax s x = s from by unfold pickMax; rw [if_neg hlt]]
      obtain ⟨l1, l2, heq, hl1⟩ := ih s
      cases l1 with
      | nil =>
        simp only [List.nil_append] at heq
        have hb : rs.foldl pickMax s = s := (List.head_eq_of_cons_eq heq).symm
        exact ⟨[], x :: rs, by rw [hb, List.nil_append], by simp⟩
      | cons a l1' =>
        have ha : a = s := (List.head_eq_of_cons_eq heq).symm
        have hrs : rs = l1' ++ (rs.foldl pickMax s) :: l2 :=
          List.tail_eq_of_cons_eq heq
        refine ⟨s :: x :: l1', l2, ?_, ?_⟩
        · rw [List.cons_append, List.cons_append, ← hrs]
        · intro y hy
          have hs2 : s.2 < (rs.foldl pickMax s).2 := by
            have := hl1 a (List.mem_cons_self _ _)
            rw [ha] at this
            exact this
          rcases List.mem_cons.mp hy with rfl | hy'
          · exact hs2
          · rcases List.mem_cons.mp hy' with rfl | hy''
            · exact lt_of_le_of_lt (le_of_not_lt hlt) hs2
            · exact hl1 y (List.mem_cons_of_mem _ hy'')

/-! ### Score bookkeeping: keys are stable, and `scoreOf` computes the
weighted sum the spec describes -/

theorem keys_scoreAdd (s : List (String × α)) (u : String) (w : α) :
    (scoreAdd s u w).map Prod.fst = s.map Prod.fst := by
  induction s with
  | nil => rfl
  | cons a rest ih =>
    rcases a with ⟨k, x⟩
    by_cases hk : k = u
    · rw [show scoreAdd ((k, x) :: rest) u w = (k, x + w) :: rest from by
        simp only [scoreAdd]; rw [if_pos hk]]
      rfl
    · rw [show scoreAdd ((k, x) :: rest) u w = (k, x) :: scoreAdd rest u w from by
        simp only [scoreAdd]; rw [if_neg hk]]
      simp [ih]

theorem scoreOf_cons (k : String) (x : α) (rest : List (String × α))
    (v : String) :
    scoreOf ((k, x) :: rest) v = if k = v then x else scoreOf rest v := by
  unfold scoreOf
  by_cases h : k = v
  · rw [List.find?_cons_of_pos _ (by simpa using h), if_pos h]
  · rw [List.find?_cons_of_neg _ (by simpa using h), if_neg h]

theorem scoreOf_scoreAdd (s : List (String × α)) (u v : String) (w : α) :
    scoreOf (scoreAdd s u w) v =
      scoreOf s v + (if v = u ∧ u ∈ s.map Prod.fst then w else 0) := by
  induction s with
  | nil => simp [scoreAdd, scoreOf]
  | cons a rest ih =>
    rcases a with ⟨k, x⟩
    by_cases hk : k = u
    · rw [show scoreAdd ((k, x) :: rest) u w = (k, x + w) :: rest from by
        simp only [scoreAdd]; rw [if_pos hk]]
      rw [scoreOf_cons, scoreOf_cons]
      by_cases hv : k = v
      · rw [if_pos hv, if_pos hv, if_pos ⟨hv.symm.trans hk, by
          rw [List.map_cons, hk]; exact List.mem_cons_self _ _⟩]
      · rw [if_neg hv, if_neg hv]
        rw [if_neg (fun hc => hv ((hk.trans hc.1.symm)))]
        ring
    · rw [show scoreAdd ((k, x) :: rest) u w = (k, x) :: scoreAdd rest u w from by
        simp only [scoreAdd]; rw [if_neg hk]]
      rw [scoreOf_cons, scoreOf_cons]
      by_cases hv : k = v
      · rw [if_pos hv, if_pos hv]
        rw [if_neg (fun hc => hk (hv.trans hc.1))]
        ring
      · rw [if_neg hv, if_neg hv, ih]
        have hiff : (v = u ∧ u ∈ ((k, x) :: rest).map Prod.fst) ↔
            (v = u ∧ u ∈ rest.map Prod.fst) := by
          rw [List.map_cons]
          constructor
          · rintro ⟨h1, h2⟩
            rcases List.mem_cons.mp h2 with he | h2'
            · exact absurd he.symm hk
            · exact ⟨h1, h2'⟩
          · rintro ⟨h1, h2⟩
            exact ⟨h1, List.mem_cons_of_mem _ h2⟩
        rw [if_congr hiff rfl rfl]

theorem keys_versFold (idx2ver : Nat → Option String) (w : α) :
    ∀ (vs : List Nat) (sc : List (String × α)),
      ((vs.foldl (fun sc i => match idx2ver i with
        | some v => scoreAdd sc v w
        | none => sc) sc).map Prod.fst) = sc.map Prod.fst := by
  intro vs
  induction vs with
  | nil => intro sc; rfl
  | cons i vs ih =>
    intro sc
    rw [List.foldl_cons, ih]
    cases hi : idx2ver i with
    | some v => exact keys_scoreAdd sc v w
    | none => rfl

theorem keys_addEntryScores (idx2ver : Nat → Option String)
    (weights : String → α) (common : List String) (sc : List (String × α))
    (e : SigEntry) :
    (addEntryScores idx2ver weights common sc e).map Prod.fst =
      sc.map Prod.fst := by
  unfold addEntryScores
  by_cases h : common.contains e.hash = true
  · rw [if_pos h]
    exact keys_versFold idx2ver (weights e.hash) e.vers sc
  · rw [if_neg h]

theorem keys_computeScores (allVers : List String)
    (idx2ver : Nat → Option String) (weights : String → α)
    (sig : List SigEntry) (common : List String) :
    (computeScores allVers idx2ver weights sig common).map Prod.fst =
      allVers := by
  unfold computeScores
  have key : ∀ (sg : List SigEntry) (acc : List (String × α)),
      ((sg.foldl (addEntryScores idx2ver weights common) acc).map Prod.fst) =
        acc.map Prod.fst := by
    intro sg
    induction sg with
    | nil => intro acc; rfl
    | cons e sg ih =>
      intro acc
      rw [List.foldl_cons, ih, keys_addEntryScores]
  rw [key]
  unfold initScores
  rw [List.map_map]
  rw [show (Prod.fst ∘ fun v : String => (v, (0 : α))) = id from
    funext fun v => rfl, List.map_id]

theorem scoreOf_initScores (allVers : List String) (v : String) :
    scoreOf (initScores (α := α) allVers) v = 0 := by
  induction allVers with
  | nil => rfl
  | cons u us ih =>
    show scoreOf ((u, (0 : α)) :: initScores us) v = 0
    rw [scoreOf_cons]
    by_cases h : u = v
    · rw [if_pos h]
    · rw [if_neg h]
      exact ih

theorem scoreOf_versFold (idx2ver : Nat → Option String) (w : α) (v : String) :
    ∀ (vs : List Nat) (sc : List (String × α)), v ∈ sc.map Prod.fst →
      scoreOf (vs.foldl (fun sc i => match idx2ver i with
        | some u => scoreAdd sc u w
        | none => sc) sc) v =
      scoreOf sc v + ((vs.countP (fun i => idx2ver i == some v)) : α) * w := by
  intro vs
  induction vs with
  | nil =>
    intro sc _
    simp
  | cons i vs ih =>
    intro sc hv
    rw [List.foldl_cons, List.countP_cons]
    cases hi : idx2ver i with
    | some u =>
      have hv' : v ∈ (scoreAdd sc u w).map Prod.fst := by
        rw [keys_scoreAdd]
        exact hv
      rw [ih _ hv', scoreOf_scoreAdd]
      by_cases huv : u = v
      · rw [if_pos ⟨huv.symm, huv ▸ hv⟩]
        rw [show (some u == some v) = true from by simp [huv]]
        rw [if_pos rfl]
        push_cast
        ring
      · rw [if_neg (fun hc => huv hc.1.symm)]
        rw [show (some u == some v) = false from by simp [huv]]
        rw [if_neg (by decide)]
        push_cast
        ring
    | none =>
      rw [ih _ hv]
      rw [show ((none : Option String) == some v) = false from by simp]
      rw [if_neg (by decide)]
      push_cast
      ring

theorem scoreOf_addEntryScores (idx2ver : Nat → Option String)
    (weights : String → α) (common : List String) (sc : List (String × α))
    (e : SigEntry) (v : String) (hv : v ∈ sc.map Prod.fst) :
    scoreOf (addEntryScores idx2ver weights common sc e) v =
      scoreOf sc v + (if common.contains e.hash then
        ((e.vers.countP (fun i => idx2ver i == some v)) : α) * weights e.hash
        else 0) := by
  unfold addEntryScores
  by_cases h : common.contains e.hash = true
  · rw [if_pos h, if_pos h]
    exact scoreOf_versFold idx2ver (weights e.hash) v e.vers sc hv
  · rw [if_neg h, if_neg h]
    ring

theorem scoreOf_computeScores (allVers : List String)
    (idx2ver : Nat → Option String) (weights : String → α)
    (sig : List SigEntry) (common : List String) (v : String)
    (hv : v ∈ allVers) :
    scoreOf (computeScores allVers idx2ver weights sig common) v =
      (sig.map (fun e => if common.contains e.hash then
        ((e.vers.countP (fun i => idx2ver i == some v)) : α) * weights e.hash
        else 0)).sum := by
  unfold computeScores
  have hkinit : v ∈ (initScores (α := α) allVers).map Prod.fst := by
    unfold initScores
    rw [List.map_map]
    simpa using hv
  have key : ∀ (sg : List SigEntry) (acc : List (String × α)),
      v ∈ acc.map Prod.fst →
      scoreOf (sg.foldl (addEntryScores idx2ver weights common) acc) v =
        scoreOf acc v + (sg.map (fun e => if common.contains e.hash then
          ((e.vers.countP (fun i => idx2ver i == some v)) : α) * weights e.hash
          else 0)).sum := by
    intro sg
    induction sg with
    | nil =>
      intro acc _
      simp
    | cons e sg ih =>
      intro acc hva
      rw [List.foldl_cons,
        ih _ (by rw [keys_addEntryScores]; exact hva),
        scoreOf_addEntryScores _ _ _ _ _ _ hva, List.map_cons, List.sum_cons]
      ring
  rw [key _ _ hkinit, scoreOf_initScores]
  ring

theorem scoreOf_eq_of_mem_nodup {l : List (String × α)}
    (hnd : (l.map Prod.fst).Nodup) {p : String} {q : α}
    (hmem : (p, q) ∈ l) : scoreOf l p = q := by
  induction l with
  | nil => cases hmem
  | cons a rest ih =>
    rcases a with ⟨k, x⟩
    rw [scoreOf_cons]
    rw [List.map_cons, List.nodup_cons] at hnd
    rcases List.mem_cons.mp hmem with he | hmem'
    · obtain ⟨h1, h2⟩ := Prod.mk.injEq .. ▸ he
      rw [if_pos h1.symm]
      exact h2.symm
    · by_cases hk : k = p
      · exact absurd (hk ▸ List.mem_map.mpr ⟨(p, q), hmem', rfl⟩) hnd.1
      · rw [if_neg hk]
        exact ih hnd.2 hmem'

end PredictLemmas

theorem exists_pair_of_mem_keys {β : Type} {l : List (String × β)} {v : String}
    (h : v ∈ l.map Prod.fst) : ∃ w, (v, w) ∈ l := by
  obtain ⟨⟨a, b⟩, hp, heq⟩ := List.mem_map.mp h
  cases heq
  exact ⟨b, hp⟩

/-! ## Claim C2: the coverage gate -/

/-- **C2.** A result record is emitted for a component iff its
`ave_funcs` is nonzero and the shared-fingerprint ratio reaches
θ = 0.1 (given a nonempty version index, without which Python's `max`
raises and the component is skipped); and in the spec's scenario —
`ave_funcs = 100`, 9 shared fingerprints, coverage 0.09 < 0.1 — no
record is emitted. -/
theorem coverage_gate :
    (∀ {α : Type} [LinearOrderedField α] (repoName : String)
        (componentFps : List String) (ave : Nat) (allVers : List String)
        (idx2ver : Nat → Option String) (weights : String → α)
        (sig : List SigEntry) (targetMap : List (String × List String))
        (predMapOf : String → List (String × List String))
        (dist : String → String → Nat) (dMod : Nat),
        allVers ≠ [] →
        ((processComponent repoName componentFps ave allVers idx2ver weights
            sig targetMap predMapOf dist dMod).isSome = true ↔
          (ave ≠ 0 ∧
            ((commonFuncs componentFps (targetMap.map Prod.fst)).length : ℚ) /
              (ave : ℚ) ≥ (1 / 10 : ℚ)))) ∧
    processComponent (α := ℚ) "R" ["f1", "f2", "f3", "f4", "f5", "f6", "f7",
        "f8", "f9"] 100 ["v1"] (fun _ => some "v1") (fun _ => 1) []
      [("f1", ["/t"]), ("f2", ["/t"]), ("f3", ["/t"]), ("f4", ["/t"]),
        ("f5", ["/t"]), ("f6", ["/t"]), ("f7", ["/t"]), ("f8", ["/t"]),
        ("f9", ["/t"])] (fun _ => []) (fun _ _ => 1000) 30 = none := by
  constructor
  · intro α _inst repoName componentFps ave allVers idx2ver weights sig
      targetMap predMapOf dist dMod hne
    unfold processComponent
    by_cases h0 : ave = 0
    · rw [if_pos h0]
      simp [h0]
    rw [if_neg h0]
    by_cases hgate : ((commonFuncs componentFps
        (targetMap.map Prod.fst)).length : ℚ) / (ave : ℚ) ≥ (1 / 10 : ℚ)
    · rw [if_pos hgate]
      cases hsc : computeScores (α := α) allVers idx2ver weights sig
          (commonFuncs componentFps (targetMap.map Prod.fst)) with
      | nil =>
        exfalso
        have hkeys := keys_computeScores (α := α) allVers idx2ver weights sig
          (commonFuncs componentFps (targetMap.map Prod.fst))
        rw [hsc] at hkeys
        exact hne hkeys.symm
      | cons s rest =>
        simp only [predictVer, Option.isSome_some]
        exact iff_of_true trivial ⟨h0, hgate⟩
    · rw [if_neg hgate]
      constructor
      · intro hc
        exact absurd hc (by decide)
      · rintro ⟨-, hg⟩
        exact absurd hg hgate
  · unfold processComponent
    rw [if_neg (by decide : ¬(100 = 0))]
    rw [if_neg ?_]
    · rw [show (commonFuncs ["f1", "f2", "f3", "f4", "f5", "f6", "f7", "f8",
          "f9"] (([("f1", ["/t"]), ("f2", ["/t"]), ("f3", ["/t"]),
          ("f4", ["/t"]), ("f5", ["/t"]), ("f6", ["/t"]), ("f7", ["/t"]),
          ("f8", ["/t"]), ("f9", ["/t"])] :
            List (String × List String)).map Prod.fst)).length = 9 from by
        decide]
      rw [theta_gate]
      rintro ⟨-, hc⟩
      omega

/-- Witness for C2 at a component with full coverage
(1 shared fingerprint, `ave_funcs = 1`). -/
theorem coverage_gate_witness :
    (processComponent (α := ℚ) "R" ["f1"] 1 ["v1"] (fun _ => some "v1")
      (fun _ => 1) [⟨"f1", [0]⟩] [("f1", ["/t"])] (fun _ => [])
      (fun _ _ => 1000) 30).isSome = true := by
  rw [coverage_gate.1 (α := ℚ) "R" ["f1"] 1 ["v1"] (fun _ => some "v1")
    (fun _ => 1) [⟨"f1", [0]⟩] [("f1", ["/t"])] (fun _ => [])
    (fun _ _ => 1000) 30 (by decide)]
  refine ⟨by decide, ?_⟩
  rw [show (commonFuncs ["f1"] (([("f1", ["/t"])] :
      List (String × List String)).map Prod.fst)).length = 1 from by decide]
  rw [theta_gate]
  omega

/-! ## Claim C1: version prediction -/

/-- The tag-index map of the three-tag scenario (§8.4 of the spec):
indices 0, 1, 2 name versions `v1`, `v2`, `v3`. -/
def idx3 : Nat → Option String := fun i =>
  if i = 0 then some "v1" else if i = 1 then some "v2"
  else if i = 2 then some "v3" else none

/-- The weights of the three-tag scenario: `w_A = log(3/3) = 0`,
`w_B = log(3/2) > 0`, `w_C = log(3/1) > 0` — `wB` and `wC` stand for
the two positive logarithms. -/
def weights3 {α : Type} [LinearOrderedField α] (wB wC : α) : String → α :=
  fun h => if h = "A" then 0 else if h = "B" then wB else wC

/-- The signature of the three-tag scenario: `A` in every tag, `B` in
`v2, v3`, `C` only in `v3`. -/
def sig3 : List SigEntry := [⟨"A", [0, 1, 2]⟩, ⟨"B", [1, 2]⟩, ⟨"C", [2]⟩]

/-- **C1.** Version prediction.
(1) Whenever a record is emitted, its version is a member of the
version index whose score is maximal, and it is the FIRST maximum in
index order (the element a stable descending sort puts first — both
`max(...)` in `_predict_version` and `sorted(..., reverse=True)[0]` in
`process_single_component` pick it).
(2) The score of a version is the sum, over signature entries whose
hash lies in the common set, of `weights[hash]` once per listed tag
index mapping to that version.
(3) In the three-tag scenario (target shares `A` and `B` only,
`w_A = 0`, `w_B, w_C > 0`) the predicted version is `v2`. -/
theorem version_prediction :
    (∀ {α : Type} [LinearOrderedField α] (repoName : String)
        (componentFps : List String) (ave : Nat) (allVers : List String)
        (idx2ver : Nat → Option String) (weights : String → α)
        (sig : List SigEntry) (targetMap : List (String × List String))
        (predMapOf : String → List (String × List String))
        (dist : String → String → Nat) (dMod : Nat) (r : DetectResult),
        allVers.Nodup →
        processComponent repoName componentFps ave allVers idx2ver weights sig
          targetMap predMapOf dist dMod = some r →
        (r.ver ∈ allVers ∧
          (∀ v ∈ allVers,
            scoreOf (computeScores allVers idx2ver weights sig
                (commonFuncs componentFps (targetMap.map Prod.fst))) v ≤
              scoreOf (computeScores allVers idx2ver weights sig
                (commonFuncs componentFps (targetMap.map Prod.fst))) r.ver) ∧
          (∃ l1 l2, allVers = l1 ++ r.ver :: l2 ∧
            ∀ v ∈ l1,
              scoreOf (computeScores allVers idx2ver weights sig
                  (commonFuncs componentFps (targetMap.map Prod.fst))) v <
                scoreOf (computeScores allVers idx2ver weights sig
                  (commonFuncs componentFps (targetMap.map Prod.fst))) r.ver))) ∧
    (∀ {α : Type} [LinearOrderedField α] (allVers : List String)
        (idx2ver : Nat → Option String) (weights : String → α)
        (sig : List SigEntry) (common : List String) (v : String),
        v ∈ allVers →
        scoreOf (computeScores allVers idx2ver weights sig common) v =
          (sig.map (fun e => if common.contains e.hash then
            ((e.vers.countP (fun i => idx2ver i == some v)) : α) *
              weights e.hash else 0)).sum) ∧
    (∀ {α : Type} [LinearOrderedField α] (wB wC : α), 0 < wB → 0 < wC →
        predictVer (computeScores ["v1", "v2", "v3"] idx3 (weights3 wB wC)
          sig3 (commonFuncs ["A", "B", "C"] ["A", "B"])) = some "v2") := by
  refine ⟨?_, ?_, ?_⟩
  · intro α _inst repoName componentFps ave allVers idx2ver weights sig
      targetMap predMapOf dist dMod r hnd hr
    unfold processComponent at hr
    by_cases h0 : ave = 0
    · rw [if_pos h0] at hr
      cases hr
    rw [if_neg h0] at hr
    by_cases hgate : ((commonFuncs componentFps
        (targetMap.map Prod.fst)).length : ℚ) / (ave : ℚ) ≥ (1 / 10 : ℚ)
    swap
    · rw [if_neg hgate] at hr
      cases hr
    rw [if_pos hgate] at hr
    cases hsc : computeScores (α := α) allVers idx2ver weights sig
        (commonFuncs componentFps (targetMap.map Prod.fst)) with
    | nil =>
      rw [hsc] at hr
      simp only [predictVer] at hr
      cases hr
    | cons s rest =>
      rw [hsc] at hr
      simp only [predictVer] at hr
      have hrv : r.ver = (rest.foldl pickMax s).1 := by
        cases (Option.some.inj hr).symm
        rfl
      have hkeys := keys_computeScores (α := α) allVers idx2ver weights sig
        (commonFuncs componentFps (targetMap.map Prod.fst))
      rw [hsc] at hkeys
      have hndk : ((s :: rest).map Prod.fst).Nodup := by
        rw [hkeys]
        exact hnd
      have hbmem : rest.foldl pickMax s ∈ s :: rest := foldl_pickMax_mem rest s
      have hbscore : scoreOf (s :: rest) (rest.foldl pickMax s).1 =
          (rest.foldl pickMax s).2 :=
        scoreOf_eq_of_mem_nodup hndk (by
          rw [show ((rest.foldl pickMax s).1, (rest.foldl pickMax s).2) =
            rest.foldl pickMax s from rfl]
          exact hbmem)
      rw [hrv]
      refine ⟨?_, ?_, ?_⟩
      · rw [← hkeys]
        exact List.mem_map.mpr ⟨rest.foldl pickMax s, hbmem, rfl⟩
      · intro v hv
        rw [← hkeys] at hv
        obtain ⟨q, hq⟩ := exists_pair_of_mem_keys hv
        rw [scoreOf_eq_of_mem_nodup hndk hq, hbscore]
        exact foldl_pickMax_ge rest s (v, q) hq
      · obtain ⟨L1, L2, heq, hL1⟩ := foldl_pickMax_first rest s
        refine ⟨L1.map Prod.fst, L2.map Prod.fst, ?_, ?_⟩
        · rw [← hkeys, heq]
          simp
        · intro v hv
          obtain ⟨y, hyL1, hyv⟩ := List.mem_map.mp hv
          have hymem : y ∈ s :: rest := by
            rw [heq]
            exact List.mem_append.mpr (Or.inl hyL1)
          have : scoreOf (s :: rest) y.1 = y.2 :=
            scoreOf_eq_of_mem_nodup hndk (by
              rw [show (y.1, y.2) = y from rfl]
              exact hymem)
          rw [← hyv, this, hbscore]
          exact hL1 y hyL1
  · intro α _inst allVers idx2ver weights sig common v hv
    exact scoreOf_computeScores allVers idx2ver weights sig common v hv
  · intro α _inst wB wC hwB hwC
    have hsc : computeScores (α := α) ["v1", "v2", "v3"] idx3
        (weights3 wB wC) sig3 (commonFuncs ["A", "B", "C"] ["A", "B"]) =
        [("v1", 0 + 0), ("v2", 0 + 0 + wB), ("v3", 0 + 0 + wB)] := rfl
    rw [hsc]
    simp only [predictVer]
    rw [List.foldl_cons, List.foldl_cons, List.foldl_nil]
    rw [show pickMax ("v1", (0 : α) + 0) ("v2", 0 + 0 + wB) =
        ("v2", 0 + 0 + wB) from by
      unfold pickMax
      rw [if_pos (show (("v1", (0 : α) + 0)).2 < (("v2", 0 + 0 + wB)).2 by
        simp only []
        linarith)]]
    rw [show pickMax ("v2", (0 : α) + 0 + wB) ("v3", 0 + 0 + wB) =
        ("v2", 0 + 0 + wB) from by
      unfold pickMax
      rw [if_neg (show ¬((("v2", (0 : α) + 0 + wB)).2 <
          (("v3", 0 + 0 + wB)).2) by
        simp only []
        exact lt_irrefl _)]]

/-- Witness for C1's scenario at `α := ℚ`, `wB := 1`, `wC := 2`. -/
theorem version_prediction_witness :
    predictVer (computeScores (α := ℚ) ["v1", "v2", "v3"] idx3 (weights3 1 2)
      sig3 (commonFuncs ["A", "B", "C"] ["A", "B"])) = some "v2" :=
  version_prediction.2.2 (1 : ℚ) 2 (by norm_num) (by norm_num)

/-! ## Claim C3: usage classification and relocation -/

/-- **C3.**
(1) When every fingerprint of the predicted version is present in the
target map, `_analyze_usage` counts each once in `used` (`unused` and
`modified` stay 0) and sets `relocated` exactly when some fingerprint
has NO relpath that occurs as a substring of a target relpath for the
same fingerprint.
(2) Substring, not equality: a predicted path `/lib/foo.c` against
target path `/vendor/lib/foo.c` is NOT a relocation. -/
theorem usage_relocation :
    (∀ (predMap targetMap : List (String × List String))
        (dist : String → String → Nat) (dMod : Nat),
        (∀ e ∈ predMap, (alLookup targetMap e.1).isSome = true) →
        analyzeUsage predMap targetMap dist dMod =
          (predMap.length, 0, 0,
            predMap.any (fun e =>
              !(anySubPath e.2 ((alLookup targetMap e.1).getD []))))) ∧
    (∀ (dist : String → String → Nat) (dMod : Nat),
        analyzeUsage [("F", ["/lib/foo.c"])] [("F", ["/vendor/lib/foo.c"])]
          dist dMod = (1, 0, 0, false)) := by
  have hgen : ∀ (targetMap : List (String × List String))
      (dist : String → String → Nat) (dMod : Nat)
      (predMap : List (String × List String))
      (acc : Nat × Nat × Nat × Bool),
      (∀ e ∈ predMap, (alLookup targetMap e.1).isSome = true) →
      predMap.foldl (analyzeStep targetMap dist dMod) acc =
        (acc.1 + predMap.length, acc.2.1, acc.2.2.1,
          acc.2.2.2 || predMap.any (fun e =>
            !(anySubPath e.2 ((alLookup targetMap e.1).getD [])))) := by
    intro targetMap dist dMod predMap
    induction predMap with
    | nil =>
      intro acc _
      simp
    | cons e pm ih =>
      intro acc hall
      rw [List.foldl_cons]
      cases hlk : alLookup targetMap e.1 with
      | none =>
        exact absurd (hall e (List.mem_cons_self _ _))
          (by rw [hlk]; decide)
      | some tpaths =>
        have hstep : analyzeStep targetMap dist dMod acc e =
            (acc.1 + 1, acc.2.1, acc.2.2.1,
              acc.2.2.2 || !(anySubPath e.2 tpaths)) := by
          unfold analyzeStep
          rw [hlk]
        rw [hstep, ih _ (fun e' he' => hall e' (List.mem_cons_of_mem _ he'))]
        rw [List.any_cons, hlk]
        simp only [Option.getD_some, List.length_cons]
        refine Prod.ext ?_ (Prod.ext rfl (Prod.ext rfl ?_))
        · simp only []
          omega
        · simp only []
          rw [Bool.or_assoc]
  constructor
  · intro predMap targetMap dist dMod hall
    unfold analyzeUsage
    rw [hgen targetMap dist dMod predMap (0, 0, 0, false) hall]
    simp
  · intro dist dMod
    unfold analyzeUsage
    rw [hgen _ dist dMod _ (0, 0, 0, false) (by decide)]
    decide

/-- Witness for C3 at a genuinely relocated fingerprint: no predicted
relpath is a substring of the target relpath, so `relocated = True`. -/
theorem usage_relocation_witness :
    analyzeUsage [("F", ["/lib/foo.c"])] [("F", ["/other/place.c"])]
      (fun _ _ => 0) 30 = (1, 0, 0, true) := by
  unfold analyzeUsage
  rw [show (0, 0, 0, false) = ((0 : Nat), (0 : Nat), (0 : Nat), false)
    from rfl]
  have h := usage_relocation.1 [("F", ["/lib/foo.c"])]
    [("F", ["/other/place.c"])] (fun _ _ => 0) 30 (by decide)
  unfold analyzeUsage at h
  rw [h]
  decide

end ReCentris
